import Mathlib

/-!
Verification of the simplebf Bloom filter.

Shallow embedding of the C++ sources (include/simplebf/bloom_filter.h,
src/util.cc).  The 64-bit machine arithmetic on std::size_t is modelled as
natural-number arithmetic reduced mod 2^64 at every operation; std::string
values are modelled as lists of byte values (0..255); the bit array
std::vector<bool> is modelled as a List Bool.  The library is a class
template over the element type, whose element-dependent ingredients are
std::hash (an opaque, implementation-defined function) and std::to_string;
both are taken as parameters of the embedding (stdHash, toStr), so every
theorem quantifies over them.
-/

namespace sbf

/-- Modulus of the 64-bit machine word std::size_t on the platform the
repository targets (g++ on x86-64 Linux). -/
def W : Nat := 2 ^ 64

/-- Model of static_cast of one char of a std::string to std::size_t.  The
string element is a byte b with 0 ≤ b < 256, but char is signed on the
target platform, so bytes 128..255 hold the negative value b - 256, which
the cast sign-extends to the 64-bit value 2^64 - 256 + b. -/
def charToSizeT (b : Nat) : Nat := if b < 128 then b else W - 256 + b

/-- One iteration of the loop of sbf::hash::Djb2 (src/util.cc):
hash = ((hash << 5) + hash) + static_cast of c, each operation wrapping in
the 64-bit word. -/
def Djb2Step (h b : Nat) : Nat := (((h <<< 5) % W + h) % W + charToSizeT b) % W

/-- The hash function sbf::hash::Djb2 from src/util.cc, folded over the
bytes of the input string from the seed 5381. -/
def Djb2 (s : List Nat) : Nat := s.foldl Djb2Step 5381

/-- Modelled from the spec: the recurrence the spec states for the hash
utility, hash = hash * 33 + byte in machine-word arithmetic, folded over
the bytes from the seed 5381.  Kept separate from Djb2 so that the two can
be compared. -/
def Djb2SpecFold (s : List Nat) : Nat := s.foldl (fun h b => (33 * h + b) % W) 5381

/-- State of one sbf::BloomFilter instance: the bit array filter_, the
hash-function count num_hashes_, the insertion counter size_, and the two
bits 0x1 (kHasLog2NumBitsError) and 0x2 (kHasNumHashesError) of the flag
word parameter_error_flags_, kept as two booleans. -/
structure BloomFilter where
  filter : List Bool
  num_hashes : Nat
  size : Nat
  sizeError : Bool
  hashCountError : Bool
deriving DecidableEq

/-- Member function NumBits: the size of the bit array. -/
def NumBits (st : BloomFilter) : Nat := st.filter.length

/-- Member function ModNumBits: reduction by the bitmask NumBits() - 1.
Reachable states always have NumBits ≥ 1 (the array size is a power of
two), which is what makes the mask a genuine modulus. -/
def ModNumBits (st : BloomFilter) (x : Nat) : Nat := x &&& (NumBits st - 1)

/-- Model of std::vector::resize(n): the first min(n, old size) elements
are kept, any newly created elements are value-initialized to false. -/
def vresize (l : List Bool) (n : Nat) : List Bool :=
  l.take n ++ List.replicate (n - l.length) false

/-- Member function SetLog2NumBits: for an exponent above 33 the array is
resized to 2^33 bits, the size-error flag is raised and false is returned;
otherwise the array is resized to 2^e bits, the size-error flag is cleared
and true is returned.  The pair is (return value, new state). -/
def SetLog2NumBits (st : BloomFilter) (log2_num_bits : Nat) : Bool × BloomFilter :=
  if 33 < log2_num_bits then
    (false, { st with filter := vresize st.filter (2 ^ 33), sizeError := true })
  else
    (true, { st with filter := vresize st.filter (2 ^ log2_num_bits), sizeError := false })

/-- Member function SetNumHashes: a requested count below 1 is clamped to
1 with the hash-count-error flag raised and false returned; otherwise the
count is stored, the flag is cleared and true is returned. -/
def SetNumHashes (st : BloomFilter) (num_hashes : Nat) : Bool × BloomFilter :=
  if num_hashes < 1 then
    (false, { st with num_hashes := 1, hashCountError := true })
  else
    (true, { st with num_hashes := num_hashes, hashCountError := false })

/-- Member function SetOptimalNumHashes.  The C++ computes the candidate
count as static_cast to int of the double expression
std::log(2) * NumBits() / max_num_entries; that floating-point computation
is not modelled, and its result enters here as the argument computed.  The
function delegates to SetNumHashes and then unconditionally clears the
hash-count-error flag, returning the delegated success indicator. -/
def SetOptimalNumHashes (st : BloomFilter) (computed : Nat) : Bool × BloomFilter :=
  let r := SetNumHashes st computed
  (r.1, { r.2 with hashCountError := false })

/-- Member-initializer state of the two-argument constructor: size_ = 0,
parameter_error_flags_ = 0, filter_ default-constructed empty.  The field
num_hashes_ is uninitialized in the C++ at this point and is modelled as
0; the constructor body always overwrites it. -/
def initState : BloomFilter :=
  { filter := [], num_hashes := 0, size := 0, sizeError := false, hashCountError := false }

/-- The two-argument constructor BloomFilter(num_bits, num_hashes): it
runs SetLog2NumBits and then SetNumHashes on the initializer state. -/
def mkBloomFilter (num_bits num_hashes : Nat) : BloomFilter :=
  (SetNumHashes (SetLog2NumBits initState num_bits).2 num_hashes).2

/-- Default value kDefaultLog2NumBits of the array-size exponent. -/
def kDefaultLog2NumBits : Nat := 8

/-- Default value kNumDefaultNumHashes of the hash-function count. -/
def kNumDefaultNumHashes : Nat := 5

/-- The one-argument constructor BloomFilter(num_bits), delegating with
the default hash count. -/
def mkBloomFilterDefaultHashes (num_bits : Nat) : BloomFilter :=
  mkBloomFilter num_bits kNumDefaultNumHashes

/-- The default constructor, delegating with the default exponent. -/
def mkBloomFilterDefault : BloomFilter :=
  mkBloomFilterDefaultHashes kDefaultLog2NumBits

/-- Member function HasParameterError: whether the flag word is nonzero. -/
def HasParameterError (st : BloomFilter) : Bool := st.sizeError || st.hashCountError

/-- The raw second hash value before reduction mod NumBits: the Djb2 hash
of the element text, shifted left by one in the 64-bit word, with the low
bit forced to one (the expression (hash::Djb2(...) << 1) | 1). -/
def RawSecondHash (s : List Nat) : Nat := ((Djb2 s <<< 1) % W) ||| 1

/-- Loop of the member function Hash: with a, b the current pair and i the
current loop index, n more iterations produce positions
a ← (a + b) &&& mask, b ← (b + i) &&& mask per step. -/
def hashLoop (mask : Nat) : Nat → Nat → Nat → Nat → List Nat
  | _, _, _, 0 => []
  | a, b, i, n + 1 =>
    let a2 := (a + b) &&& mask
    let b2 := (b + i) &&& mask
    a2 :: hashLoop mask a2 b2 (i + 1) n

/-- Writing loop of Insert: sets the bit at every listed position to
true. -/
def setBits (l : List Bool) : List Nat → List Bool
  | [] => l
  | h :: t => setBits (l.set h true) t

section

variable {α : Type} (stdHash : α → Nat) (toStr : α → List Nat)

/-- Member function FirstHash: the std::hash value of the element reduced
by ModNumBits. -/
def FirstHash (st : BloomFilter) (entry : α) : Nat := ModNumBits st (stdHash entry)

/-- Member function SecondHash: the raw second hash of the element text
reduced by ModNumBits.  For numeric element types the text is the
std::to_string image; for std::string the specialization hashes the string
itself, i.e. toStr is the identity on byte lists. -/
def SecondHash (st : BloomFilter) (entry : α) : Nat :=
  ModNumBits st (RawSecondHash (toStr entry))

/-- Member function Hash: enhanced double hashing.  hashes[0] is the first
hash; each further position comes from one hashLoop step.  The C++ writes
hashes[0] into a vector of size num_hashes_, which requires
num_hashes_ ≥ 1 (an invariant of all reachable states); for a hash count
of 0 the model returns the empty probe list. -/
def Hash (st : BloomFilter) (entry : α) : List Nat :=
  match st.num_hashes with
  | 0 => []
  | k + 1 =>
    FirstHash stdHash st entry ::
      hashLoop (NumBits st - 1) (FirstHash stdHash st entry)
        (SecondHash toStr st entry) 1 k

/-- Member function Insert: sets the bit at every probe position of the
element and increments the insertion counter (a 64-bit increment). -/
def Insert (st : BloomFilter) (entry : α) : BloomFilter :=
  { st with
    filter := setBits st.filter (Hash stdHash toStr st entry),
    size := (st.size + 1) % W }

/-- Loop of the member function Contains: returns false at the first
probe position holding an unset bit, true if all listed bits are set.  The
state is threaded unchanged, mirroring that the const method performs no
write. -/
def ContainsLoop (st : BloomFilter) : List Nat → Bool × BloomFilter
  | [] => (true, st)
  | h :: t => if st.filter.getD h false then ContainsLoop st t else (false, st)

/-- Member function Contains: runs the reading loop over the probe
positions of the element. -/
def Contains (st : BloomFilter) (entry : α) : Bool × BloomFilter :=
  ContainsLoop st (Hash stdHash toStr st entry)

/-- One call of a sequence made of Insert and Contains calls only. -/
inductive FilterOp (β : Type) where
  | ins : β → FilterOp β
  | qry : β → FilterOp β

/-- Effect of one Insert or Contains call on the filter state. -/
def runOp (st : BloomFilter) : FilterOp α → BloomFilter
  | FilterOp.ins w => Insert stdHash toStr st w
  | FilterOp.qry w => (Contains stdHash toStr st w).2

/-- Effect of a sequence of Insert and Contains calls on the filter
state. -/
def runOps (st : BloomFilter) (ops : List (FilterOp α)) : BloomFilter :=
  ops.foldl (runOp stdHash toStr) st

end

/-- Modelled from the spec: the enhanced-double-hashing recurrence as the
spec states it, as a pair (a_i, b_i) with a_0 = h1, b_0 = h2 and, for
i ≥ 1, a_i = (a_(i-1) + b_(i-1)) mod N and b_i = (b_(i-1) + i) mod N.
Kept separate from Hash so that the two can be compared. -/
def edh (h1 h2 N : Nat) : Nat → Nat × Nat
  | 0 => (h1, h2)
  | i + 1 =>
    let p := edh h1 h2 N i
    ((p.1 + p.2) % N, (p.2 + (i + 1)) % N)

/-- Concrete stand-in for std::hash over unsigned 64-bit integers (the
libstdc++ implementation is the identity on the value), used only to
instantiate witnesses. -/
def natHash (n : Nat) : Nat := n % W

/-- Concrete model of std::to_string on a natural number: the bytes of its
decimal digits, used only to instantiate witnesses. -/
def natText (n : Nat) : List Nat := (Nat.toDigits 10 n).map Char.toNat

/-- A concrete reachable filter state with a set bit: a one-bit filter
(exponent 0, one hash function) right after inserting the element 5,
whose single probe position is bit 0. -/
def bitSetState : BloomFilter := Insert natHash natText (mkBloomFilter 0 1) 5

/-- Resizing the bit array yields exactly the requested length. -/
theorem vresize_length (l : List Bool) (n : Nat) : (vresize l n).length = n := by
  simp only [vresize, List.length_append, List.length_take, List.length_replicate]
  omega

/-- A masked value is strictly below any positive array length. -/
theorem and_mask_lt (x len : Nat) (h : 1 ≤ len) : x &&& (len - 1) < len :=
  Nat.lt_of_le_of_lt Nat.and_le_right (by omega)

/-- Every position emitted by the hashing loop is bounded by the mask. -/
theorem hashLoop_mem_le (mask : Nat) :
    ∀ (n a b i x : Nat), x ∈ hashLoop mask a b i n → x ≤ mask := by
  intro n
  induction n with
  | zero => intro a b i x hx; simp [hashLoop] at hx
  | succ m ih =>
    intro a b i x hx
    simp only [hashLoop, List.mem_cons] at hx
    rcases hx with hx | hx
    · subst hx; exact Nat.and_le_right
    · exact ih _ _ _ _ hx

/-- Every probe position of an element lies inside the bit array, as long
as the array is nonempty. -/
theorem Hash_mem_lt {α : Type} (stdHash : α → Nat) (toStr : α → List Nat)
    (st : BloomFilter) (entry : α) (hlen : 1 ≤ NumBits st) :
    ∀ x ∈ Hash stdHash toStr st entry, x < NumBits st := by
  intro x hx
  rcases hnh : st.num_hashes with _ | k
  · simp [Hash, hnh] at hx
  · simp only [Hash, hnh, List.mem_cons] at hx
    rcases hx with hx | hx
    · subst hx; exact and_mask_lt _ _ hlen
    · exact Nat.lt_of_le_of_lt (hashLoop_mem_le _ _ _ _ _ _ hx) (by omega)

/-- Setting bits does not change the array length. -/
theorem setBits_length (hs : List Nat) :
    ∀ l : List Bool, (setBits l hs).length = l.length := by
  induction hs with
  | nil => intro l; rfl
  | cons h t ih => intro l; simp [setBits, ih, List.length_set]

/-- A set bit survives one further bit write. -/
theorem getD_set_mono (l : List Bool) (i h : Nat) (hd : l.getD i false = true) :
    (l.set h true).getD i false = true := by
  simp only [List.getD_eq_getElem?_getD, List.getElem?_set] at *
  by_cases heq : h = i
  · subst heq
    by_cases hlt : h < l.length
    · simp [hlt]
    · have hn : l[h]? = none := by
        rw [List.getElem?_eq_none_iff]
        omega
      rw [hn] at hd
      simp at hd
  · simp [heq, hd]

/-- A set bit survives any number of further bit writes. -/
theorem setBits_mono (hs : List Nat) :
    ∀ (l : List Bool) (i : Nat), l.getD i false = true →
      (setBits l hs).getD i false = true := by
  induction hs with
  | nil => intro l i hd; exact hd
  | cons h t ih => intro l i hd; exact ih _ _ (getD_set_mono l i h hd)

/-- Writing true at an in-range position makes that bit read true. -/
theorem getD_set_self (l : List Bool) (h : Nat) (hlt : h < l.length) :
    (l.set h true).getD h false = true := by
  simp [List.getD_eq_getElem?_getD, List.getElem?_set, hlt]

/-- After the writing loop, every in-range listed bit reads true. -/
theorem setBits_sets (hs : List Nat) :
    ∀ (l : List Bool) (h : Nat), h ∈ hs → h < l.length →
      (setBits l hs).getD h false = true := by
  induction hs with
  | nil => intro l h hm; simp at hm
  | cons h0 t ih =>
    intro l h hm hlt
    rcases List.mem_cons.mp hm with rfl | hmem
    · exact setBits_mono t _ _ (getD_set_self l h hlt)
    · exact ih _ _ hmem (by simpa [List.length_set] using hlt)

/-- The probe positions of an element depend on the filter state only
through the array length and the hash count. -/
theorem Hash_congr {α : Type} (stdHash : α → Nat) (toStr : α → List Nat)
    (st st' : BloomFilter) (entry : α)
    (hlen : NumBits st = NumBits st') (hk : st.num_hashes = st'.num_hashes) :
    Hash stdHash toStr st entry = Hash stdHash toStr st' entry := by
  unfold Hash FirstHash SecondHash ModNumBits
  rw [hlen, hk]

/-- The reading loop of Contains returns the state it was given. -/
theorem ContainsLoop_snd (st : BloomFilter) (hs : List Nat) :
    (ContainsLoop st hs).2 = st := by
  induction hs with
  | nil => rfl
  | cons h t ih =>
    simp only [ContainsLoop]
    split
    · exact ih
    · rfl

/-- The reading loop of Contains answers true exactly when every listed
bit is set. -/
theorem ContainsLoop_true_iff (st : BloomFilter) (hs : List Nat) :
    (ContainsLoop st hs).1 = true ↔ ∀ h ∈ hs, st.filter.getD h false = true := by
  induction hs with
  | nil => simp [ContainsLoop]
  | cons h t ih =>
    simp only [ContainsLoop, List.mem_cons]
    cases hb : st.filter.getD h false with
    | false =>
      simp only [Bool.false_eq_true, if_false]
      constructor
      · intro hf; cases hf
      · intro hall
        have := hall h (Or.inl rfl)
        rw [hb] at this
        cases this
    | true =>
      simp only [if_true]
      rw [ih]
      constructor
      · intro hall x hx
        rcases hx with rfl | hx
        · exact hb
        · exact hall x hx
      · intro hall x hx
        exact hall x (Or.inr hx)

/-- One Insert or Contains call does not change the array length. -/
theorem runOp_NumBits {α : Type} (sh : α → Nat) (ts : α → List Nat)
    (st : BloomFilter) (o : FilterOp α) :
    NumBits (runOp sh ts st o) = NumBits st := by
  cases o with
  | ins w => simp [runOp, Insert, NumBits, setBits_length]
  | qry w => simp [runOp, Contains, ContainsLoop_snd]

/-- One Insert or Contains call does not change the hash count. -/
theorem runOp_num_hashes {α : Type} (sh : α → Nat) (ts : α → List Nat)
    (st : BloomFilter) (o : FilterOp α) :
    (runOp sh ts st o).num_hashes = st.num_hashes := by
  cases o with
  | ins w => simp [runOp, Insert]
  | qry w => simp [runOp, Contains, ContainsLoop_snd]

/-- One Insert or Contains call never unsets a bit. -/
theorem runOp_mono {α : Type} (sh : α → Nat) (ts : α → List Nat)
    (st : BloomFilter) (o : FilterOp α) (i : Nat)
    (hd : st.filter.getD i false = true) :
    (runOp sh ts st o).filter.getD i false = true := by
  cases o with
  | ins w => exact setBits_mono _ _ _ hd
  | qry w => simpa [runOp, Contains, ContainsLoop_snd] using hd

/-- A sequence of Insert and Contains calls does not change the array
length. -/
theorem runOps_NumBits {α : Type} (sh : α → Nat) (ts : α → List Nat)
    (ops : List (FilterOp α)) :
    ∀ st : BloomFilter, NumBits (runOps sh ts st ops) = NumBits st := by
  induction ops with
  | nil => intro st; rfl
  | cons o t ih =>
    intro st
    rw [runOps, List.foldl_cons]
    rw [show List.foldl (runOp sh ts) (runOp sh ts st o) t
          = runOps sh ts (runOp sh ts st o) t from rfl]
    rw [ih, runOp_NumBits]

/-- A sequence of Insert and Contains calls does not change the hash
count. -/
theorem runOps_num_hashes {α : Type} (sh : α → Nat) (ts : α → List Nat)
    (ops : List (FilterOp α)) :
    ∀ st : BloomFilter, (runOps sh ts st ops).num_hashes = st.num_hashes := by
  induction ops with
  | nil => intro st; rfl
  | cons o t ih =>
    intro st
    rw [runOps, List.foldl_cons]
    rw [show List.foldl (runOp sh ts) (runOp sh ts st o) t
          = runOps sh ts (runOp sh ts st o) t from rfl]
    rw [ih, runOp_num_hashes]

/-- A sequence of Insert and Contains calls never unsets a bit. -/
theorem runOps_mono {α : Type} (sh : α → Nat) (ts : α → List Nat)
    (ops : List (FilterOp α)) :
    ∀ (st : BloomFilter) (i : Nat), st.filter.getD i false = true →
      (runOps sh ts st ops).filter.getD i false = true := by
  induction ops with
  | nil => intro st i hd; exact hd
  | cons o t ih =>
    intro st i hd
    rw [runOps, List.foldl_cons]
    exact ih (runOp sh ts st o) i (runOp_mono sh ts st o i hd)

/-- Core no-false-negative lemma: once an element is inserted, any further
sequence of Insert and Contains calls leaves its probe bits set, so a
Contains on it answers true. -/
theorem contains_after_insert {α : Type} (sh : α → Nat) (ts : α → List Nat)
    (st : BloomFilter) (v : α) (ops : List (FilterOp α))
    (hlen : 1 ≤ NumBits st) :
    (Contains sh ts (runOps sh ts (Insert sh ts st v) ops) v).1 = true := by
  have hlen1 : NumBits (Insert sh ts st v) = NumBits st := by
    simp [Insert, NumBits, setBits_length]
  have hk1 : (Insert sh ts st v).num_hashes = st.num_hashes := by
    simp [Insert]
  have hlen2 : NumBits (runOps sh ts (Insert sh ts st v) ops) = NumBits st := by
    rw [runOps_NumBits, hlen1]
  have hk2 : (runOps sh ts (Insert sh ts st v) ops).num_hashes = st.num_hashes := by
    rw [runOps_num_hashes, hk1]
  have hHash2 : Hash sh ts (runOps sh ts (Insert sh ts st v) ops) v = Hash sh ts st v :=
    Hash_congr sh ts _ _ _ hlen2 hk2
  have hset : ∀ h ∈ Hash sh ts st v,
      (Insert sh ts st v).filter.getD h false = true := by
    intro h hm
    have hlt : h < NumBits st := Hash_mem_lt sh ts st v hlen h hm
    simpa [Insert] using setBits_sets _ _ _ hm hlt
  have hset2 : ∀ h ∈ Hash sh ts st v,
      (runOps sh ts (Insert sh ts st v) ops).filter.getD h false = true := by
    intro h hm
    exact runOps_mono sh ts ops _ _ (hset h hm)
  rw [Contains, hHash2]
  exact (ContainsLoop_true_iff _ _).mpr hset2

/-- C1.  No false negatives: in any sequence of Insert and Contains calls
on one filter (any element type, any std::hash and std::to_string, any
starting state with a nonempty bit array), once Insert(v) has happened
every later Contains(v) returns true — later Insert calls only set more
bits and Contains calls change nothing. -/
theorem no_false_negatives {α : Type} (stdHash : α → Nat) (toStr : α → List Nat)
    (st : BloomFilter) (v : α) (ops : List (FilterOp α))
    (hlen : 1 ≤ NumBits st) :
    (Contains stdHash toStr
      (runOps stdHash toStr (Insert stdHash toStr st v) ops) v).1 = true :=
  contains_after_insert stdHash toStr st v ops hlen

/-- Witness for C1 on a concrete filter: exponent 3, two hash functions,
insert 5, then insert 9 and query 5, then query 5 again. -/
theorem no_false_negatives_witness :
    (Contains natHash natText
      (runOps natHash natText (Insert natHash natText (mkBloomFilter 3 2) 5)
        [FilterOp.ins 9, FilterOp.qry 5]) 5).1 = true :=
  no_false_negatives natHash natText (mkBloomFilter 3 2) 5
    [FilterOp.ins 9, FilterOp.qry 5] (by decide)

/-- C8.  Contains is side-effect free and answers by reading the probe
bits only: the state it returns is the state it was given, it answers
true exactly when every probe bit of the queried element is set, and
false exactly when some probe bit is unset. -/
theorem Contains_pure_and_reads_bits {α : Type} (stdHash : α → Nat)
    (toStr : α → List Nat) (st : BloomFilter) (entry : α) :
    (Contains stdHash toStr st entry).2 = st ∧
    ((Contains stdHash toStr st entry).1 = true ↔
      ∀ h ∈ Hash stdHash toStr st entry, st.filter.getD h false = true) ∧
    ((Contains stdHash toStr st entry).1 = false ↔
      ∃ h ∈ Hash stdHash toStr st entry, st.filter.getD h false = false) := by
  refine ⟨ContainsLoop_snd st _, (ContainsLoop_true_iff st _), ?_⟩
  rw [Contains, ← Bool.not_eq_true, ContainsLoop_true_iff]
  push_neg
  constructor
  · rintro ⟨h, hm, hb⟩
    exact ⟨h, hm, by simpa using hb⟩
  · rintro ⟨h, hm, hb⟩
    refine ⟨h, hm, ?_⟩
    simpa using hb

/-- Witness for C8 on a concrete filter and element. -/
theorem Contains_pure_and_reads_bits_witness :
    (Contains natHash natText (mkBloomFilter 2 2) 9).2 = mkBloomFilter 2 2 ∧
    ((Contains natHash natText (mkBloomFilter 2 2) 9).1 = true ↔
      ∀ h ∈ Hash natHash natText (mkBloomFilter 2 2) 9,
        (mkBloomFilter 2 2).filter.getD h false = true) ∧
    ((Contains natHash natText (mkBloomFilter 2 2) 9).1 = false ↔
      ∃ h ∈ Hash natHash natText (mkBloomFilter 2 2) 9,
        (mkBloomFilter 2 2).filter.getD h false = false) :=
  Contains_pure_and_reads_bits natHash natText (mkBloomFilter 2 2) 9

/-- The hashing loop agrees step for step with the spec recurrence: if the
running pair equals (a_i, b_i) and the loop index is i + 1, the next n
emitted positions are a_(i+1) .. a_(i+n). -/
theorem hashLoop_eq_edh (e h1 h2 : Nat) :
    ∀ (n i : Nat),
      hashLoop (2 ^ e - 1) (edh h1 h2 (2 ^ e) i).1 (edh h1 h2 (2 ^ e) i).2 (i + 1) n
        = (List.range n).map (fun j => (edh h1 h2 (2 ^ e) (i + 1 + j)).1) := by
  intro n
  induction n with
  | zero => intro i; simp [hashLoop]
  | succ m ih =>
    intro i
    have ha : ((edh h1 h2 (2 ^ e) i).1 + (edh h1 h2 (2 ^ e) i).2) &&& (2 ^ e - 1)
        = (edh h1 h2 (2 ^ e) (i + 1)).1 := by
      rw [Nat.and_pow_two_sub_one_eq_mod]
      rfl
    have hb : ((edh h1 h2 (2 ^ e) i).2 + (i + 1)) &&& (2 ^ e - 1)
        = (edh h1 h2 (2 ^ e) (i + 1)).2 := by
      rw [Nat.and_pow_two_sub_one_eq_mod]
      rfl
    have htail : List.map ((fun j => (edh h1 h2 (2 ^ e) (i + 1 + j)).1) ∘ Nat.succ)
          (List.range m)
        = List.map (fun j => (edh h1 h2 (2 ^ e) (i + 1 + 1 + j)).1) (List.range m) := by
      apply List.map_congr_left
      intro a ha2
      simp only [Function.comp_apply, Nat.succ_eq_add_one]
      have hidx : i + 1 + (a + 1) = i + 1 + 1 + a := by omega
      rw [hidx]
    simp only [hashLoop]
    rw [ha, hb, ih (i + 1), List.range_succ_eq_map, List.map_cons, List.map_map, htail]

/-- C2.  Enhanced double hashing: on a filter whose bit array has 2^e bits
and whose hash count k is at least 1, Hash returns exactly the ordered
sequence of k positions of the recurrence hashes[0] = h1 and, for i ≥ 1,
a ← (a + b) mod N, b ← (b + i) mod N, hashes[i] = a, with a starting at
FirstHash and b at SecondHash; the code computes each mod N as a bitwise
AND with N - 1, which agrees with mod N because N is a power of two. -/
theorem Hash_matches_enhanced_double_hashing {α : Type} (stdHash : α → Nat)
    (toStr : α → List Nat) (st : BloomFilter) (entry : α) (e : Nat)
    (he : NumBits st = 2 ^ e) (hk : 1 ≤ st.num_hashes) :
    Hash stdHash toStr st entry
      = (List.range st.num_hashes).map
          (fun i => (edh (FirstHash stdHash st entry) (SecondHash toStr st entry)
            (NumBits st) i).1) := by
  rcases hnh : st.num_hashes with _ | k
  · omega
  · simp only [Hash, hnh, he]
    have hl : hashLoop (2 ^ e - 1) (FirstHash stdHash st entry)
        (SecondHash toStr st entry) 1 k
        = (List.range k).map
            (fun j => (edh (FirstHash stdHash st entry) (SecondHash toStr st entry)
              (2 ^ e) (0 + 1 + j)).1) :=
      hashLoop_eq_edh e (FirstHash stdHash st entry) (SecondHash toStr st entry) k 0
    have htail : List.map ((fun i => (edh (FirstHash stdHash st entry)
            (SecondHash toStr st entry) (2 ^ e) i).1) ∘ Nat.succ) (List.range k)
        = List.map (fun j => (edh (FirstHash stdHash st entry)
            (SecondHash toStr st entry) (2 ^ e) (0 + 1 + j)).1) (List.range k) := by
      apply List.map_congr_left
      intro a ha2
      simp only [Function.comp_apply, Nat.succ_eq_add_one]
      have hidx : a + 1 = 0 + 1 + a := by omega
      rw [hidx]
    rw [hl, List.range_succ_eq_map, List.map_cons, List.map_map, htail]
    rfl

/-- Witness for C2 on a concrete filter: exponent 3 (8 bits), hash count
4, element 12. -/
theorem Hash_matches_enhanced_double_hashing_witness :
    Hash natHash natText (mkBloomFilter 3 4) 12
      = (List.range (mkBloomFilter 3 4).num_hashes).map
          (fun i => (edh (FirstHash natHash (mkBloomFilter 3 4) 12)
            (SecondHash natText (mkBloomFilter 3 4) 12)
            (NumBits (mkBloomFilter 3 4)) i).1) :=
  Hash_matches_enhanced_double_hashing natHash natText (mkBloomFilter 3 4) 12 3
    (by decide) (by decide)

/-- Even numbers get their low bit set by or-ing with one. -/
theorem two_mul_lor_one (m : Nat) : 2 * m ||| 1 = 2 * m + 1 := by
  apply Nat.eq_of_testBit_eq
  intro i
  rw [Nat.testBit_lor]
  cases i with
  | zero =>
    rw [Nat.testBit_zero, Nat.testBit_zero, Nat.testBit_zero]
    simp
    omega
  | succ j =>
    rw [Nat.testBit_succ, Nat.testBit_succ, Nat.testBit_succ]
    have h1 : 2 * m / 2 = m := by omega
    have h2 : (2 * m + 1) / 2 = m := by omega
    have h3 : (1 : Nat) / 2 = 0 := by norm_num
    rw [h1, h2, h3, Nat.zero_testBit]
    simp

/-- C7.  Odd second hash: the raw second hash value — twice the Djb2 hash
of the element text plus one, computed in the 64-bit machine word — is
always odd, and is therefore coprime to 2^e for every exponent e, in
particular to every power-of-two array size. -/
theorem RawSecondHash_odd_coprime :
    ∀ s : List Nat,
      RawSecondHash s = (2 * Djb2 s + 1) % W ∧
      RawSecondHash s % 2 = 1 ∧
      ∀ e : Nat, Nat.Coprime (RawSecondHash s) (2 ^ e) := by
  intro s
  have hW : (0 : Nat) < W := by norm_num [W]
  have hWe : W % 2 = 0 := by norm_num [W]
  have hshift : Djb2 s <<< 1 = 2 * Djb2 s := by
    rw [Nat.shiftLeft_eq]
    ring
  have heven : (2 * Djb2 s) % W % 2 = 0 := by
    rw [Nat.mod_mod_of_dvd _ (by norm_num [W] : (2 : Nat) ∣ W)]
    omega
  have hlt : (2 * Djb2 s) % W < W := Nat.mod_lt _ hW
  obtain ⟨m, hm⟩ : ∃ m, (2 * Djb2 s) % W = 2 * m := ⟨(2 * Djb2 s) % W / 2, by omega⟩
  have h1 : RawSecondHash s = (2 * Djb2 s) % W + 1 := by
    rw [RawSecondHash, hshift, hm, two_mul_lor_one, ← hm]
  have h2 : (2 * Djb2 s) % W + 1 = (2 * Djb2 s + 1) % W := by
    have hlt2 : (2 * Djb2 s) % W + 1 < W := by
      rw [hm]
      rw [hm] at hlt
      omega
    rw [← Nat.mod_add_mod, Nat.mod_eq_of_lt hlt2]
  have hodd : RawSecondHash s % 2 = 1 := by
    rw [h1]
    omega
  refine ⟨h1.trans h2, hodd, ?_⟩
  intro e
  exact (Nat.coprime_two_right.mpr (Nat.odd_iff.mpr hodd)).pow_right e

/-- Witness for C7 on the one-byte text 104 and the array size 2^5. -/
theorem RawSecondHash_odd_coprime_witness :
    RawSecondHash [104] = (2 * Djb2 [104] + 1) % W ∧
    RawSecondHash [104] % 2 = 1 ∧
    Nat.Coprime (RawSecondHash [104]) (2 ^ 5) :=
  ⟨(RawSecondHash_odd_coprime [104]).1, (RawSecondHash_odd_coprime [104]).2.1,
   (RawSecondHash_odd_coprime [104]).2.2 5⟩

/-- One Djb2 step is multiplication by 33 plus the sign-extended char
value, in the 64-bit word. -/
theorem Djb2Step_eq (h b : Nat) : Djb2Step h b = (33 * h + charToSizeT b) % W := by
  rw [Djb2Step, Nat.shiftLeft_eq]
  have h1 : (h * 2 ^ 5 % W + h) % W = (h * 2 ^ 5 + h) % W := Nat.mod_add_mod _ _ _
  rw [h1, Nat.mod_add_mod]
  congr 1
  ring

/-- On ASCII bytes the Djb2 fold agrees with the plain hash*33 + byte
fold, from any seed. -/
theorem Djb2_foldl_ascii (s : List Nat) :
    ∀ h : Nat, (∀ b ∈ s, b < 128) →
      s.foldl Djb2Step h = s.foldl (fun h b => (33 * h + b) % W) h := by
  induction s with
  | nil => intro h _; rfl
  | cons b t ih =>
    intro h hb
    rw [List.foldl_cons, List.foldl_cons]
    have hb0 : b < 128 := hb b (List.mem_cons_self b t)
    rw [Djb2Step_eq, show charToSizeT b = b from by simp [charToSizeT, hb0]]
    exact ih _ (fun x hx => hb x (List.mem_cons_of_mem _ hx))

/-- C9 counterexample: on the one-byte string 0xFF (a legal std::string
content), Djb2 differs from the fold of hash = hash*33 + byte: char is
signed on the target platform of the repository, so the cast sign-extends the
byte before adding it. -/
theorem Djb2_byte_recurrence_cex : ¬ Djb2 [255] = Djb2SpecFold [255] := by decide

/-- C9 (amended).  The hash utility is a total deterministic function of
the byte sequence: on empty input it returns exactly 5381, in general it
is the fold of hash = hash*33 + c from seed 5381 in machine-word
arithmetic where c is the sign-extended char value of each byte, and on
ASCII input (every byte below 128) this coincides with the fold of
hash = hash*33 + byte. -/
theorem Djb2_spec :
    Djb2 [] = 5381 ∧
    (∀ s : List Nat, Djb2 s = s.foldl (fun h b => (33 * h + charToSizeT b) % W) 5381) ∧
    (∀ s : List Nat, (∀ b ∈ s, b < 128) → Djb2 s = Djb2SpecFold s) := by
  refine ⟨rfl, ?_, ?_⟩
  · intro s
    rw [Djb2]
    congr 1
    funext h b
    exact Djb2Step_eq h b
  · intro s hs
    rw [Djb2, Djb2SpecFold]
    exact Djb2_foldl_ascii s 5381 hs

/-- Witness for C9 on the two-byte ASCII string of bytes 104 and 105. -/
theorem Djb2_spec_witness : Djb2 [104, 105] = Djb2SpecFold [104, 105] :=
  Djb2_spec.2.2 [104, 105] (by decide)

/-- In-range bits below the new size are preserved by a resize. -/
theorem vresize_getD_lt (l : List Bool) (n i : Nat) (hi : i < l.length) (hin : i < n) :
    (vresize l n).getD i false = l.getD i false := by
  simp only [vresize, List.getD_eq_getElem?_getD]
  rw [List.getElem?_append, List.getElem?_take]
  simp only [List.length_take]
  rw [if_pos (by omega : i < min n l.length), if_pos hin]

/-- Bits at or beyond the old size read false after a resize. -/
theorem vresize_getD_ge (l : List Bool) (n i : Nat) (hi : l.length ≤ i) :
    (vresize l n).getD i false = false := by
  simp only [vresize, List.getD_eq_getElem?_getD]
  by_cases hc : i < n
  · rw [List.getElem?_append_right (by simp; omega)]
    simp only [List.getElem?_replicate]
    split
    · rfl
    · rfl
  · rw [List.getElem?_eq_none]
    · rfl
    · simp
      omega

/-- C3 counterexample: build a one-bit filter, insert an element (which
sets its only bit), then call SetLog2NumBits with the same valid exponent
0.  The call succeeds, yet the bit array is not all-false afterwards:
std::vector::resize keeps prior contents. -/
theorem SetLog2NumBits_not_reset_cex :
    (SetLog2NumBits bitSetState 0).1 = true ∧
    (SetLog2NumBits bitSetState 0).2.filter.getD 0 false = true := by
  decide

/-- C3 (amended).  A successful SetBitArraySizeExponent(e) with valid
e ≤ 33 returns true, clears the size-error flag and resizes the bit
array to exactly 2^e bits; bits at positions below both the old and the
new size keep their previous values, and positions at or beyond the old
size read false.  Resizing preserves prior contents — it is not a
reset. -/
theorem SetLog2NumBits_resize_semantics (st : BloomFilter) (e : Nat) (he : e ≤ 33) :
    (SetLog2NumBits st e).1 = true ∧
    (SetLog2NumBits st e).2.sizeError = false ∧
    NumBits (SetLog2NumBits st e).2 = 2 ^ e ∧
    (∀ i, i < NumBits st → i < 2 ^ e →
      (SetLog2NumBits st e).2.filter.getD i false = st.filter.getD i false) ∧
    (∀ i, NumBits st ≤ i → (SetLog2NumBits st e).2.filter.getD i false = false) := by
  have hcond : ¬ 33 < e := by omega
  rw [show SetLog2NumBits st e
      = (true, { st with filter := vresize st.filter (2 ^ e), sizeError := false }) from by
        rw [SetLog2NumBits, if_neg hcond]]
  refine ⟨rfl, rfl, ?_, ?_, ?_⟩
  · exact vresize_length st.filter (2 ^ e)
  · intro i hi hin
    exact vresize_getD_lt st.filter (2 ^ e) i hi hin
  · intro i hi
    exact vresize_getD_ge st.filter (2 ^ e) i hi

/-- Witness for C3 (amended) on the one-set-bit state, resized to
exponent 2: the call succeeds, the preserved bit 0 still reads true via
the preservation clause, and the fresh bit 3 reads false. -/
theorem SetLog2NumBits_resize_semantics_witness :
    (SetLog2NumBits bitSetState 2).1 = true ∧
    (SetLog2NumBits bitSetState 2).2.filter.getD 0 false
      = bitSetState.filter.getD 0 false ∧
    (SetLog2NumBits bitSetState 2).2.filter.getD 3 false = false :=
  ⟨(SetLog2NumBits_resize_semantics bitSetState 2 (by decide)).1,
   (SetLog2NumBits_resize_semantics bitSetState 2 (by decide)).2.2.2.1 0
     (by decide) (by decide),
   (SetLog2NumBits_resize_semantics bitSetState 2 (by decide)).2.2.2.2 3 (by decide)⟩

/-- C4 counterexample: on a filter whose SizeError flag is pending (here
constructed with the out-of-range exponent 34), a SetOptimalNumHashes
call whose computed optimum is 0 clamps the hash count to 1 and clears
the HashCountError flag, yet HasParameterError is still true immediately
after the call — only the hash-count flag is cleared, not the size
flag. -/
theorem SetOptimalNumHashes_hasError_cex :
    (SetOptimalNumHashes (mkBloomFilter 34 5) 0).2.num_hashes = 1 ∧
    HasParameterError (SetOptimalNumHashes (mkBloomFilter 34 5) 0).2 = true := by
  constructor
  · rfl
  · rfl

/-- C4 (amended).  SetOptimalNumHashes, with the double-precision optimum
abstracted as the computed value handed to it: it sets the hash count to
the computed optimum clamped below by 1, returns true exactly when the
computed optimum was at least 1 (usable without clamping), and
unconditionally clears the HashCountError flag afterwards; provided no
SizeError is pending, HasParameterError is false immediately after the
call. -/
theorem SetOptimalNumHashes_spec (st : BloomFilter) (computed : Nat) :
    (SetOptimalNumHashes st computed).2.num_hashes = max computed 1 ∧
    (SetOptimalNumHashes st computed).1 = decide (1 ≤ computed) ∧
    (SetOptimalNumHashes st computed).2.hashCountError = false ∧
    (st.sizeError = false →
      HasParameterError (SetOptimalNumHashes st computed).2 = false) := by
  rcases Nat.eq_zero_or_pos computed with h0 | h1
  · subst h0
    refine ⟨rfl, rfl, rfl, ?_⟩
    intro hs
    simp [SetOptimalNumHashes, SetNumHashes, HasParameterError, hs]
  · have hcond : ¬ computed < 1 := by omega
    have hmax : max computed 1 = computed := by omega
    rw [hmax]
    rw [show SetOptimalNumHashes st computed
        = (true, { st with num_hashes := computed, hashCountError := false }) from by
          rw [SetOptimalNumHashes, SetNumHashes, if_neg hcond]]
    refine ⟨rfl, ?_, rfl, ?_⟩
    · exact (decide_eq_true h1).symm
    · intro hs
      simp [HasParameterError, hs]

/-- Witness for C4 (amended) at a clean filter (exponent 4, hash count 3)
and computed optimum 0. -/
theorem SetOptimalNumHashes_spec_witness :
    (SetOptimalNumHashes (mkBloomFilter 4 3) 0).2.num_hashes = max 0 1 ∧
    (SetOptimalNumHashes (mkBloomFilter 4 3) 0).1 = decide (1 ≤ 0) ∧
    (SetOptimalNumHashes (mkBloomFilter 4 3) 0).2.hashCountError = false ∧
    HasParameterError (SetOptimalNumHashes (mkBloomFilter 4 3) 0).2 = false :=
  ⟨(SetOptimalNumHashes_spec (mkBloomFilter 4 3) 0).1,
   (SetOptimalNumHashes_spec (mkBloomFilter 4 3) 0).2.1,
   (SetOptimalNumHashes_spec (mkBloomFilter 4 3) 0).2.2.1,
   (SetOptimalNumHashes_spec (mkBloomFilter 4 3) 0).2.2.2 (by decide)⟩

/-- C5.  Size-exponent clamp: SetLog2NumBits with e > 33 makes the array
exactly 2^33 bits, raises the size-error flag and returns false; with
e ≤ 33 it makes the array 2^e bits, clears the flag and returns true;
and a filter constructed with the clamped exponent 34 still works:
Insert followed by Contains answers true, for any element type,
std::hash, std::to_string and element. -/
theorem SetLog2NumBits_clamp (st : BloomFilter) (e : Nat) :
    (33 < e →
      (SetLog2NumBits st e).1 = false ∧
      (SetLog2NumBits st e).2.sizeError = true ∧
      NumBits (SetLog2NumBits st e).2 = 2 ^ 33) ∧
    (e ≤ 33 →
      (SetLog2NumBits st e).1 = true ∧
      (SetLog2NumBits st e).2.sizeError = false ∧
      NumBits (SetLog2NumBits st e).2 = 2 ^ e) ∧
    (∀ {β : Type} (sh : β → Nat) (ts : β → List Nat) (v : β),
      (Contains sh ts (Insert sh ts (mkBloomFilterDefaultHashes 34) v) v).1 = true) := by
  refine ⟨?_, ?_, ?_⟩
  · intro hgt
    rw [show SetLog2NumBits st e
        = (false, { st with filter := vresize st.filter (2 ^ 33), sizeError := true }) from by
          rw [SetLog2NumBits, if_pos hgt]]
    exact ⟨rfl, rfl, vresize_length st.filter (2 ^ 33)⟩
  · intro hle
    have hcond : ¬ 33 < e := by omega
    rw [show SetLog2NumBits st e
        = (true, { st with filter := vresize st.filter (2 ^ e), sizeError := false }) from by
          rw [SetLog2NumBits, if_neg hcond]]
    exact ⟨rfl, rfl, vresize_length st.filter (2 ^ e)⟩
  · intro β sh ts v
    have hnb : NumBits (mkBloomFilterDefaultHashes 34) = 2 ^ 33 := by
      simp [mkBloomFilterDefaultHashes, mkBloomFilter, NumBits, SetNumHashes,
        SetLog2NumBits, kNumDefaultNumHashes, initState, vresize_length]
    have hlen : 1 ≤ NumBits (mkBloomFilterDefaultHashes 34) := by
      rw [hnb]
      exact Nat.one_le_two_pow
    exact contains_after_insert sh ts (mkBloomFilterDefaultHashes 34) v [] hlen

/-- Witness for C5: the clamped call on a small filter at exponent 34,
a valid call at exponent 3, and the insert-then-query round trip on the
filter constructed with exponent 34. -/
theorem SetLog2NumBits_clamp_witness :
    ((SetLog2NumBits (mkBloomFilter 2 2) 34).1 = false ∧
      (SetLog2NumBits (mkBloomFilter 2 2) 34).2.sizeError = true ∧
      NumBits (SetLog2NumBits (mkBloomFilter 2 2) 34).2 = 2 ^ 33) ∧
    ((SetLog2NumBits (mkBloomFilter 2 2) 3).1 = true ∧
      (SetLog2NumBits (mkBloomFilter 2 2) 3).2.sizeError = false ∧
      NumBits (SetLog2NumBits (mkBloomFilter 2 2) 3).2 = 2 ^ 3) ∧
    (Contains natHash natText
      (Insert natHash natText (mkBloomFilterDefaultHashes 34) 7) 7).1 = true :=
  ⟨(SetLog2NumBits_clamp (mkBloomFilter 2 2) 34).1 (by decide),
   (SetLog2NumBits_clamp (mkBloomFilter 2 2) 3).2.1 (by decide),
   (SetLog2NumBits_clamp (mkBloomFilter 2 2) 34).2.2 natHash natText 7⟩

/-- The hash count is at least one after any SetNumHashes call. -/
theorem one_le_SetNumHashes (st : BloomFilter) (k : Nat) :
    1 ≤ (SetNumHashes st k).2.num_hashes := by
  rw [SetNumHashes]
  split
  · exact Nat.le_refl 1
  · next hcond => exact (by omega : 1 ≤ k)

/-- C6.  Hash-count clamp: SetNumHashes with k < 1 clamps to 1, raises
the hash-count-error flag and returns false; with k ≥ 1 it stores k,
clears the flag and returns true; consequently the hash count is at
least 1 after every constructor and every setter call — SetLog2NumBits
leaves the count untouched and the other setters install a count that is
at least 1. -/
theorem SetNumHashes_clamp (st : BloomFilter) (k : Nat) :
    (k < 1 →
      (SetNumHashes st k).1 = false ∧
      (SetNumHashes st k).2.num_hashes = 1 ∧
      (SetNumHashes st k).2.hashCountError = true) ∧
    (1 ≤ k →
      (SetNumHashes st k).1 = true ∧
      (SetNumHashes st k).2.num_hashes = k ∧
      (SetNumHashes st k).2.hashCountError = false) ∧
    1 ≤ (SetNumHashes st k).2.num_hashes ∧
    (∀ c, 1 ≤ (SetOptimalNumHashes st c).2.num_hashes) ∧
    (∀ e, (SetLog2NumBits st e).2.num_hashes = st.num_hashes) ∧
    (∀ nb nh, 1 ≤ (mkBloomFilter nb nh).num_hashes) ∧
    (∀ nb, 1 ≤ (mkBloomFilterDefaultHashes nb).num_hashes) ∧
    1 ≤ mkBloomFilterDefault.num_hashes := by
  refine ⟨?_, ?_, one_le_SetNumHashes st k, ?_, ?_, ?_, ?_, ?_⟩
  · intro hlt
    rw [show SetNumHashes st k
        = (false, { st with num_hashes := 1, hashCountError := true }) from by
          rw [SetNumHashes, if_pos hlt]]
    exact ⟨rfl, rfl, rfl⟩
  · intro hge
    have hcond : ¬ k < 1 := by omega
    rw [show SetNumHashes st k
        = (true, { st with num_hashes := k, hashCountError := false }) from by
          rw [SetNumHashes, if_neg hcond]]
    exact ⟨rfl, rfl, rfl⟩
  · intro c
    exact one_le_SetNumHashes st c
  · intro e
    rw [SetLog2NumBits]
    split
    · rfl
    · rfl
  · intro nb nh
    exact one_le_SetNumHashes (SetLog2NumBits initState nb).2 nh
  · intro nb
    exact one_le_SetNumHashes (SetLog2NumBits initState nb).2 kNumDefaultNumHashes
  · exact one_le_SetNumHashes (SetLog2NumBits initState kDefaultLog2NumBits).2
      kNumDefaultNumHashes

/-- Witness for C6: the clamping branch on a concrete filter and the
requested count 0. -/
theorem SetNumHashes_clamp_witness :
    (SetNumHashes (mkBloomFilter 2 2) 0).1 = false ∧
    (SetNumHashes (mkBloomFilter 2 2) 0).2.num_hashes = 1 ∧
    (SetNumHashes (mkBloomFilter 2 2) 0).2.hashCountError = true :=
  (SetNumHashes_clamp (mkBloomFilter 2 2) 0).1 (by decide)

end sbf
